import Mathlib

/-
  Verification development for the leftwm-layouts tiling layout engine.
  The Rust sources are shallowly embedded: i32 becomes Int, u32/usize become
  Nat (overflow does not occur in the intended ranges), f32/f64 values become
  exact rationals, and in-place slice mutation becomes List mapping/folding.
-/

set_option maxHeartbeats 1000000

namespace LeftwmLayouts

/-- Axis-aligned rectangle from geometry/rect.rs: position x, y (signed,
`i32`) and dimensions w, h (unsigned, `u32`, modelled as Nat). -/
structure Rect where
  x : Int
  y : Int
  w : Nat
  h : Nat
  deriving DecidableEq, Repr

instance : Inhabited Rect := ⟨⟨0, 0, 0, 0⟩⟩

/-- Surface area of a Rect (`Rect::surface_area`). -/
def Rect.surface_area (r : Rect) : Nat := r.w * r.h

/-- Boundary-inclusive point containment (`Rect::contains`). -/
def Rect.contains (r : Rect) (p : Int × Int) : Bool :=
  decide (r.x ≤ p.1 ∧ p.1 ≤ r.x + (r.w : Int) ∧ r.y ≤ p.2 ∧ p.2 ≤ r.y + (r.h : Int))

/-- Top edge (`Rect::top_edge`). -/
def Rect.top_edge (r : Rect) : Int := r.y

/-- Right edge (`Rect::right_edge`). -/
def Rect.right_edge (r : Rect) : Int := r.x + (r.w : Int)

/-- Bottom edge (`Rect::bottom_edge`). -/
def Rect.bottom_edge (r : Rect) : Int := r.y + (r.h : Int)

/-- Left edge (`Rect::left_edge`). -/
def Rect.left_edge (r : Rect) : Int := r.x

/-- Integer division together with the remainder (geometry/calc.rs `divrem`). -/
def divrem (a b : Nat) : Nat × Nat := (a / b, a % b)

/-- The loop body of `remainderless_division`: push `div + 1` while the
remainder lasts, then `div`, for `k` iterations. -/
def remainderlessAux (d : Nat) : Nat → Nat → List Nat
  | _, 0 => []
  | rem, k + 1 =>
    if rem > 0 then (d + 1) :: remainderlessAux d (rem - 1) k
    else d :: remainderlessAux d rem k

/-- geometry/calc.rs `remainderless_division`: divide `a` by `b` distributing
the remainder across the first entries. -/
def remainderless_division (a b : Nat) : List Nat :=
  remainderlessAux (divrem a b).1 (divrem a b).2 b

theorem remainderlessAux_eq (d rem k : Nat) :
    remainderlessAux d rem k =
      List.replicate (min rem k) (d + 1) ++ List.replicate (k - min rem k) d := by
  induction k generalizing rem with
  | zero => simp [remainderlessAux]
  | succ k ih =>
    by_cases h : rem > 0
    · have hmin : min rem (k + 1) = min (rem - 1) k + 1 := by omega
      have hsub : (k + 1) - min rem (k + 1) = k - min (rem - 1) k := by omega
      simp [remainderlessAux, h, ih, hmin, hsub, List.replicate_succ]
    · have h0 : rem = 0 := by omega
      subst h0
      simp [remainderlessAux, ih, List.replicate_succ]

theorem remainderless_division_eq (a b : Nat) (hb : 0 < b) :
    remainderless_division a b =
      List.replicate (a % b) (a / b + 1) ++ List.replicate (b - a % b) (a / b) := by
  have hlt : a % b < b := Nat.mod_lt _ hb
  have hmin : min (a % b) b = a % b := by omega
  simp [remainderless_division, divrem, remainderlessAux_eq, hmin]

theorem remainderless_division_length (a b : Nat) :
    (remainderless_division a b).length = b := by
  have h : ∀ rem k, (remainderlessAux (divrem a b).1 rem k).length = k := by
    intro rem k
    rw [remainderlessAux_eq]
    simp only [List.length_append, List.length_replicate]
    omega
  simpa [remainderless_division] using h (divrem a b).2 b

theorem remainderless_division_sum (a b : Nat) (hb : 0 < b) :
    (remainderless_division a b).sum = a := by
  rw [remainderless_division_eq a b hb]
  have hmod := Nat.div_add_mod a b
  have hle : a % b * (a / b) ≤ b * (a / b) :=
    Nat.mul_le_mul_right _ (Nat.le_of_lt (Nat.mod_lt _ hb))
  rw [List.sum_append, List.sum_replicate, List.sum_replicate, smul_eq_mul, smul_eq_mul,
    Nat.mul_succ, Nat.sub_mul]
  omega

theorem remainderless_division_mem (a b : Nat) (hb : 0 < b) :
    ∀ v ∈ remainderless_division a b, v = a / b ∨ v = a / b + 1 := by
  rw [remainderless_division_eq a b hb]
  intro v hv
  rcases List.mem_append.1 hv with h | h
  · right; exact (List.eq_of_mem_replicate h)
  · left; exact (List.eq_of_mem_replicate h)

theorem pairwise_ge_replicate (n : Nat) (v : Nat) :
    List.Pairwise (fun u w => u ≥ w) (List.replicate n v) := by
  induction n with
  | zero => simp
  | succ n ih =>
    rw [List.replicate_succ]
    refine List.Pairwise.cons ?_ ih
    intro w hw
    rw [List.eq_of_mem_replicate hw]

theorem remainderless_division_sorted (a b : Nat) (hb : 0 < b) :
    List.Pairwise (fun u w => u ≥ w) (remainderless_division a b) := by
  rw [remainderless_division_eq a b hb]
  rw [List.pairwise_append]
  refine ⟨pairwise_ge_replicate _ _, pairwise_ge_replicate _ _, ?_⟩
  intro u hu w hw
  rw [List.eq_of_mem_replicate hu, List.eq_of_mem_replicate hw]
  omega

/-- Split strategies from geometry/split_axis.rs. `Horizontal` cuts by
horizontal lines, `Vertical` by vertical lines; `None` leaves the rectangle
whole. -/
inductive SplitAxis where
  | Horizontal
  | Vertical
  | Grid
  | Fibonacci
  | Dwindle
  | None
  deriving DecidableEq, Repr

/-- The `SplitAxis::Vertical` loop of geometry/calc.rs `split`: lay out the
given widths left to right starting at `fromLeft`. -/
def splitVerticalAux (y : Int) (h : Nat) (fromLeft : Int) : List Nat → List Rect
  | [] => []
  | w :: ws => ⟨fromLeft, y, w, h⟩ :: splitVerticalAux y h (fromLeft + (w : Int)) ws

/-- `SplitAxis::Vertical` branch of geometry/calc.rs `split`. -/
def splitVertical (rect : Rect) (amount : Nat) : List Rect :=
  splitVerticalAux rect.y rect.h rect.x (remainderless_division rect.w amount)

/-- The `SplitAxis::Horizontal` loop of geometry/calc.rs `split`: lay out the
given heights top to bottom starting at `fromTop`. -/
def splitHorizontalAux (x : Int) (w : Nat) (fromTop : Int) : List Nat → List Rect
  | [] => []
  | h :: hs => ⟨x, fromTop, w, h⟩ :: splitHorizontalAux x w (fromTop + (h : Int)) hs

/-- `SplitAxis::Horizontal` branch of geometry/calc.rs `split`. -/
def splitHorizontal (rect : Rect) (amount : Nat) : List Rect :=
  splitHorizontalAux rect.x rect.w rect.y (remainderless_division rect.h amount)

/-- Total area of a list of rectangles. -/
def areaSum (l : List Rect) : Nat := (l.map Rect.surface_area).sum

/-- Two rectangles have intersecting interiors (as regions of the plane;
endpoints are integers, so the real-interval criterion is an integer one). -/
def overlapInteriors (a b : Rect) : Prop :=
  max a.x b.x < min (a.x + (a.w : Int)) (b.x + (b.w : Int)) ∧
  max a.y b.y < min (a.y + (a.h : Int)) (b.y + (b.h : Int))

instance (a b : Rect) : Decidable (overlapInteriors a b) := by
  unfold overlapInteriors; infer_instance

/-- The interiors of two rectangles are disjoint. -/
def disjointInteriors (a b : Rect) : Prop := ¬ overlapInteriors a b

instance (a b : Rect) : Decidable (disjointInteriors a b) := by
  unfold disjointInteriors; infer_instance

/-- `inner` is contained in `outer` (as a closed region). -/
def subRect (inner outer : Rect) : Prop :=
  outer.x ≤ inner.x ∧ inner.x + (inner.w : Int) ≤ outer.x + (outer.w : Int) ∧
  outer.y ≤ inner.y ∧ inner.y + (inner.h : Int) ≤ outer.y + (outer.h : Int)

theorem subRect_refl (r : Rect) : subRect r r := by
  unfold subRect; omega

theorem subRect_trans {a b c : Rect} (h1 : subRect a b) (h2 : subRect b c) :
    subRect a c := by
  unfold subRect at *; omega

theorem disjointInteriors_mono_left {a a' b : Rect} (hsub : subRect a a')
    (h : disjointInteriors a' b) : disjointInteriors a b := by
  unfold disjointInteriors overlapInteriors at *
  unfold subRect at hsub
  omega

theorem disjointInteriors_symm {a b : Rect} (h : disjointInteriors a b) :
    disjointInteriors b a := by
  unfold disjointInteriors overlapInteriors at *
  omega

theorem disjointInteriors_mono_right {a b b' : Rect} (hsub : subRect b b')
    (h : disjointInteriors a b') : disjointInteriors a b :=
  disjointInteriors_symm (disjointInteriors_mono_left hsub (disjointInteriors_symm h))

theorem splitVerticalAux_length (y : Int) (h : Nat) (fl : Int) (ws : List Nat) :
    (splitVerticalAux y h fl ws).length = ws.length := by
  induction ws generalizing fl with
  | nil => rfl
  | cons w ws ih => simp [splitVerticalAux, ih]

theorem splitVerticalAux_mem (y : Int) (h : Nat) (fl : Int) (ws : List Nat) :
    ∀ r ∈ splitVerticalAux y h fl ws,
      r.y = y ∧ r.h = h ∧ fl ≤ r.x ∧ r.x + (r.w : Int) ≤ fl + (ws.sum : Int) := by
  induction ws generalizing fl with
  | nil => simp [splitVerticalAux]
  | cons w ws ih =>
    intro r hr
    simp only [splitVerticalAux, List.mem_cons] at hr
    rcases hr with hr | hr
    · subst hr
      refine ⟨rfl, rfl, le_refl _, ?_⟩
      simp only [List.sum_cons, Nat.cast_add]
      omega
    · have := ih (fl + (w : Int)) r hr
      simp only [List.sum_cons, Nat.cast_add] at this ⊢
      omega

theorem splitVerticalAux_areaSum (y : Int) (h : Nat) (fl : Int) (ws : List Nat) :
    areaSum (splitVerticalAux y h fl ws) = ws.sum * h := by
  induction ws generalizing fl with
  | nil => simp [splitVerticalAux, areaSum]
  | cons w ws ih =>
    simp only [splitVerticalAux, areaSum, List.map_cons, List.sum_cons, List.sum_nil]
    have := ih (fl + (w : Int))
    unfold areaSum at this
    rw [this]
    simp [Rect.surface_area, Nat.add_mul]

theorem splitVerticalAux_pairwise (y : Int) (h : Nat) (fl : Int) (ws : List Nat) :
    List.Pairwise disjointInteriors (splitVerticalAux y h fl ws) := by
  induction ws generalizing fl with
  | nil => simp [splitVerticalAux]
  | cons w ws ih =>
    refine List.Pairwise.cons ?_ (ih _)
    intro r hr
    have hb := splitVerticalAux_mem y h (fl + (w : Int)) ws r hr
    unfold disjointInteriors overlapInteriors
    simp only
    omega

theorem splitHorizontalAux_length (x : Int) (w : Nat) (ft : Int) (hs : List Nat) :
    (splitHorizontalAux x w ft hs).length = hs.length := by
  induction hs generalizing ft with
  | nil => rfl
  | cons hh hs ih => simp [splitHorizontalAux, ih]

theorem splitHorizontalAux_mem (x : Int) (w : Nat) (ft : Int) (hs : List Nat) :
    ∀ r ∈ splitHorizontalAux x w ft hs,
      r.x = x ∧ r.w = w ∧ ft ≤ r.y ∧ r.y + (r.h : Int) ≤ ft + (hs.sum : Int) := by
  induction hs generalizing ft with
  | nil => simp [splitHorizontalAux]
  | cons hh hs ih =>
    intro r hr
    simp only [splitHorizontalAux, List.mem_cons] at hr
    rcases hr with hr | hr
    · subst hr
      refine ⟨rfl, rfl, le_refl _, ?_⟩
      simp only [List.sum_cons, Nat.cast_add]
      omega
    · have := ih (ft + (hh : Int)) r hr
      simp only [List.sum_cons, Nat.cast_add] at this ⊢
      omega

theorem splitHorizontalAux_areaSum (x : Int) (w : Nat) (ft : Int) (hs : List Nat) :
    areaSum (splitHorizontalAux x w ft hs) = w * hs.sum := by
  induction hs generalizing ft with
  | nil => simp [splitHorizontalAux, areaSum]
  | cons hh hs ih =>
    simp only [splitHorizontalAux, areaSum, List.map_cons, List.sum_cons, List.sum_nil]
    have := ih (ft + (hh : Int))
    unfold areaSum at this
    rw [this]
    simp [Rect.surface_area, Nat.mul_add]

theorem splitHorizontalAux_pairwise (x : Int) (w : Nat) (ft : Int) (hs : List Nat) :
    List.Pairwise disjointInteriors (splitHorizontalAux x w ft hs) := by
  induction hs generalizing ft with
  | nil => simp [splitHorizontalAux]
  | cons hh hs ih =>
    refine List.Pairwise.cons ?_ (ih _)
    intro r hr
    have hb := splitHorizontalAux_mem x w (ft + (hh : Int)) hs r hr
    unfold disjointInteriors overlapInteriors
    simp only
    omega

theorem splitVertical_length (rect : Rect) (amount : Nat) :
    (splitVertical rect amount).length = amount := by
  unfold splitVertical
  rw [splitVerticalAux_length, remainderless_division_length]

theorem splitVertical_areaSum (rect : Rect) (amount : Nat) (ha : 0 < amount) :
    areaSum (splitVertical rect amount) = rect.surface_area := by
  unfold splitVertical
  rw [splitVerticalAux_areaSum, remainderless_division_sum _ _ ha, Rect.surface_area]

theorem splitVertical_subRect (rect : Rect) (amount : Nat) (ha : 0 < amount) :
    ∀ r ∈ splitVertical rect amount, subRect r rect := by
  intro r hr
  have hb := splitVerticalAux_mem rect.y rect.h rect.x _ r hr
  rw [remainderless_division_sum _ _ ha] at hb
  unfold subRect
  omega

theorem splitVertical_pairwise (rect : Rect) (amount : Nat) :
    List.Pairwise disjointInteriors (splitVertical rect amount) :=
  splitVerticalAux_pairwise _ _ _ _

theorem splitHorizontal_length (rect : Rect) (amount : Nat) :
    (splitHorizontal rect amount).length = amount := by
  unfold splitHorizontal
  rw [splitHorizontalAux_length, remainderless_division_length]

theorem splitHorizontal_areaSum (rect : Rect) (amount : Nat) (ha : 0 < amount) :
    areaSum (splitHorizontal rect amount) = rect.surface_area := by
  unfold splitHorizontal
  rw [splitHorizontalAux_areaSum, remainderless_division_sum _ _ ha, Rect.surface_area]

theorem splitHorizontal_subRect (rect : Rect) (amount : Nat) (ha : 0 < amount) :
    ∀ r ∈ splitHorizontal rect amount, subRect r rect := by
  intro r hr
  have hb := splitHorizontalAux_mem rect.x rect.w rect.y _ r hr
  rw [remainderless_division_sum _ _ ha] at hb
  unfold subRect
  omega

theorem splitHorizontal_pairwise (rect : Rect) (amount : Nat) :
    List.Pairwise disjointInteriors (splitHorizontal rect amount) :=
  splitHorizontalAux_pairwise _ _ _ _

/-- Rotation variants from geometry/rotation.rs. -/
inductive Rotation where
  | North
  | East
  | South
  | West
  deriving DecidableEq, Repr

/-- `Rotation::clockwise`. -/
def Rotation.clockwise : Rotation → Rotation
  | Rotation.North => Rotation.East
  | Rotation.East => Rotation.South
  | Rotation.South => Rotation.West
  | Rotation.West => Rotation.North

/-- Ceiling square root, modelling `(amount as f64).sqrt().ceil() as usize`
in the `SplitAxis::Grid` branch (exact for the representable range). -/
def ceilSqrt (n : Nat) : Nat :=
  if Nat.sqrt n * Nat.sqrt n = n then Nat.sqrt n else Nat.sqrt n + 1

/-- The `flat_map` over enumerated column tiles in the `SplitAxis::Grid`
branch: column `i` is split into `minRows` rows when `i < minRowAmount`,
otherwise `minRows + 1` rows. -/
def gridCols (minRowAmount minRows : Nat) : Nat → List Rect → List Rect
  | _, [] => []
  | i, ct :: rest =>
    splitHorizontal ct (if i < minRowAmount then minRows else minRows + 1) ++
      gridCols minRowAmount minRows (i + 1) rest

/-- `SplitAxis::Grid` branch of geometry/calc.rs `split`. -/
def splitGrid (rect : Rect) (amount : Nat) : List Rect :=
  let cols := ceilSqrt amount
  let colTiles := splitVertical rect cols
  let minRows := amount / cols
  let minRowAmount := colTiles.length - (divrem amount cols).2
  gridCols minRowAmount minRows 0 colTiles

/-- `SplitAxis::Fibonacci` loop of geometry/calc.rs `split`: the direction
advances clockwise every iteration; on all but the last iteration the
remaining tile is split in two along the axis given by the direction, one
half is emitted and the other becomes the new remaining tile. -/
def fibonacciAux : Rect → Rotation → Nat → List Rect
  | _, _, 0 => []
  | remaining, _, 1 => [remaining]
  | remaining, dir, k + 2 =>
    let d := dir.clockwise
    let pieces := match d with
      | Rotation.North | Rotation.South => splitHorizontal remaining 2
      | Rotation.East | Rotation.West => splitVertical remaining 2
    let backwards := match d with
      | Rotation.East | Rotation.South => false
      | Rotation.West | Rotation.North => true
    if backwards then
      pieces.getD 1 default :: fibonacciAux (pieces.getD 0 default) d (k + 1)
    else
      pieces.getD 0 default :: fibonacciAux (pieces.getD 1 default) d (k + 1)

/-- `SplitAxis::Dwindle` loop of geometry/calc.rs `split`: the split axis
alternates, starting from Vertical toggled to Horizontal on the first
iteration; the first half is always emitted, the second is kept. The Bool
tracks whether the last axis was Vertical. -/
def dwindleAux : Rect → Bool → Nat → List Rect
  | _, _, 0 => []
  | remaining, _, 1 => [remaining]
  | remaining, lastAxisVertical, k + 2 =>
    let axisVertical := !lastAxisVertical
    let pieces :=
      if axisVertical then splitVertical remaining 2 else splitHorizontal remaining 2
    pieces.getD 0 default :: dwindleAux (pieces.getD 1 default) axisVertical (k + 1)

/-- geometry/calc.rs `split`: split a rectangle into `amount` pieces with the
given strategy. -/
def split (rect : Rect) (amount : Nat) (axis : SplitAxis) : List Rect :=
  if amount = 0 then []
  else
    match axis with
    | SplitAxis.Vertical => splitVertical rect amount
    | SplitAxis.Horizontal => splitHorizontal rect amount
    | SplitAxis.Grid => splitGrid rect amount
    | SplitAxis.Fibonacci => fibonacciAux rect Rotation.East amount
    | SplitAxis.Dwindle => dwindleAux rect true amount
    | SplitAxis.None => [rect]

theorem areaSum_append (l1 l2 : List Rect) :
    areaSum (l1 ++ l2) = areaSum l1 + areaSum l2 := by
  simp [areaSum]

theorem areaSum_cons (r : Rect) (l : List Rect) :
    areaSum (r :: l) = r.surface_area + areaSum l := by
  simp [areaSum]

theorem splitVertical_subRect_all (rect : Rect) (amount : Nat) :
    ∀ r ∈ splitVertical rect amount, subRect r rect := by
  match amount with
  | 0 => intro r hr; simp [splitVertical, remainderless_division, divrem,
      remainderlessAux, splitVerticalAux] at hr
  | a + 1 => exact splitVertical_subRect rect (a + 1) (Nat.succ_pos a)

theorem splitHorizontal_subRect_all (rect : Rect) (amount : Nat) :
    ∀ r ∈ splitHorizontal rect amount, subRect r rect := by
  match amount with
  | 0 => intro r hr; simp [splitHorizontal, remainderless_division, divrem,
      remainderlessAux, splitHorizontalAux] at hr
  | a + 1 => exact splitHorizontal_subRect rect (a + 1) (Nat.succ_pos a)

theorem splitVertical_two (r : Rect) :
    ∃ p0 p1, splitVertical r 2 = [p0, p1] ∧ subRect p0 r ∧ subRect p1 r ∧
      disjointInteriors p0 p1 ∧
      p0.surface_area + p1.surface_area = r.surface_area := by
  have hlen := splitVertical_length r 2
  rcases List.length_eq_two.1 hlen with ⟨p0, p1, heq⟩
  refine ⟨p0, p1, heq, ?_, ?_, ?_, ?_⟩
  · exact splitVertical_subRect r 2 (by norm_num) p0 (by rw [heq]; simp)
  · exact splitVertical_subRect r 2 (by norm_num) p1 (by rw [heq]; simp)
  · have hpw := splitVertical_pairwise r 2
    rw [heq] at hpw
    exact (List.pairwise_cons.1 hpw).1 p1 (by simp)
  · have ha := splitVertical_areaSum r 2 (by norm_num)
    rw [heq] at ha
    simpa [areaSum] using ha

theorem splitHorizontal_two (r : Rect) :
    ∃ p0 p1, splitHorizontal r 2 = [p0, p1] ∧ subRect p0 r ∧ subRect p1 r ∧
      disjointInteriors p0 p1 ∧
      p0.surface_area + p1.surface_area = r.surface_area := by
  have hlen := splitHorizontal_length r 2
  rcases List.length_eq_two.1 hlen with ⟨p0, p1, heq⟩
  refine ⟨p0, p1, heq, ?_, ?_, ?_, ?_⟩
  · exact splitHorizontal_subRect r 2 (by norm_num) p0 (by rw [heq]; simp)
  · exact splitHorizontal_subRect r 2 (by norm_num) p1 (by rw [heq]; simp)
  · have hpw := splitHorizontal_pairwise r 2
    rw [heq] at hpw
    exact (List.pairwise_cons.1 hpw).1 p1 (by simp)
  · have ha := splitHorizontal_areaSum r 2 (by norm_num)
    rw [heq] at ha
    simpa [areaSum] using ha

theorem ceilSqrt_pos (n : Nat) (hn : 0 < n) : 0 < ceilSqrt n := by
  unfold ceilSqrt
  by_cases h : Nat.sqrt n * Nat.sqrt n = n
  · rw [if_pos h]
    rcases Nat.eq_zero_or_pos (Nat.sqrt n) with h0 | h0
    · rw [h0] at h; omega
    · exact h0
  · rw [if_neg h]; omega

theorem ceilSqrt_le (n : Nat) (hn : 0 < n) : ceilSqrt n ≤ n := by
  unfold ceilSqrt
  by_cases h : Nat.sqrt n * Nat.sqrt n = n
  · rw [if_pos h]; exact Nat.sqrt_le_self n
  · rw [if_neg h]
    rcases Nat.lt_or_ge n 2 with h2 | h2
    · interval_cases n
      · simp [Nat.sqrt] at h
    · have := Nat.sqrt_lt_self h2
      omega

theorem gridCols_length (mra mr : Nat) (l : List Rect) (i : Nat) :
    (gridCols mra mr i l).length =
      l.length * mr + (l.length - min l.length (mra - i)) := by
  induction l generalizing i with
  | nil => simp [gridCols]
  | cons ct rest ih =>
    simp only [gridCols, List.length_append, splitHorizontal_length, ih (i + 1),
      List.length_cons]
    by_cases hi : i < mra
    · rw [if_pos hi]
      have := Nat.mul_le_mul_right mr (Nat.le_refl rest.length)
      cases Nat.le_total rest.length (mra - (i + 1)) with
      | inl hle => simp only [Nat.succ_mul]; omega
      | inr hle => simp only [Nat.succ_mul]; omega
    · rw [if_neg hi]
      simp only [Nat.succ_mul]
      omega

theorem gridCols_areaSum (mra mr : Nat) (hmr : 0 < mr) (l : List Rect) (i : Nat) :
    areaSum (gridCols mra mr i l) = areaSum l := by
  induction l generalizing i with
  | nil => simp [gridCols]
  | cons ct rest ih =>
    rw [gridCols, areaSum_append, areaSum_cons, ih (i + 1)]
    congr 1
    by_cases hi : i < mra
    · rw [if_pos hi]; exact splitHorizontal_areaSum ct mr hmr
    · rw [if_neg hi]; exact splitHorizontal_areaSum ct (mr + 1) (Nat.succ_pos mr)

theorem gridCols_subRect (mra mr : Nat) (l : List Rect) (i : Nat) :
    ∀ r ∈ gridCols mra mr i l, ∃ ct ∈ l, subRect r ct := by
  induction l generalizing i with
  | nil => simp [gridCols]
  | cons ct rest ih =>
    intro r hr
    rw [gridCols, List.mem_append] at hr
    rcases hr with hr | hr
    · exact ⟨ct, by simp, splitHorizontal_subRect_all ct _ r hr⟩
    · rcases ih (i + 1) r hr with ⟨ct', hct', hsub⟩
      exact ⟨ct', by simp [hct'], hsub⟩

theorem gridCols_pairwise (mra mr : Nat) (l : List Rect) (i : Nat)
    (hl : List.Pairwise disjointInteriors l) :
    List.Pairwise disjointInteriors (gridCols mra mr i l) := by
  induction l generalizing i with
  | nil => simp [gridCols]
  | cons ct rest ih =>
    rcases List.pairwise_cons.1 hl with ⟨hrel, htail⟩
    rw [gridCols, List.pairwise_append]
    refine ⟨splitHorizontal_pairwise ct _, ih (i + 1) htail, ?_⟩
    intro a ha b hb
    rcases gridCols_subRect mra mr rest (i + 1) b hb with ⟨ct', hct', hsubb⟩
    have hsuba := splitHorizontal_subRect_all ct _ a ha
    exact disjointInteriors_mono_left hsuba
      (disjointInteriors_mono_right hsubb (hrel ct' hct'))

theorem splitGrid_length (rect : Rect) (amount : Nat) (ha : 0 < amount) :
    (splitGrid rect amount).length = amount := by
  unfold splitGrid
  have hcols : 0 < ceilSqrt amount := ceilSqrt_pos amount ha
  rw [gridCols_length, splitVertical_length]
  have hdm := Nat.div_add_mod amount (ceilSqrt amount)
  have hmlt : amount % ceilSqrt amount < ceilSqrt amount := Nat.mod_lt _ hcols
  simp only [divrem]
  omega

theorem splitGrid_areaSum (rect : Rect) (amount : Nat) (ha : 0 < amount) :
    areaSum (splitGrid rect amount) = rect.surface_area := by
  unfold splitGrid
  have hcols : 0 < ceilSqrt amount := ceilSqrt_pos amount ha
  have hle : ceilSqrt amount ≤ amount := ceilSqrt_le amount ha
  have hmr : 0 < amount / ceilSqrt amount := Nat.div_pos hle hcols
  rw [gridCols_areaSum _ _ hmr, splitVertical_areaSum rect _ hcols]

theorem splitGrid_subRect (rect : Rect) (amount : Nat) :
    ∀ r ∈ splitGrid rect amount, subRect r rect := by
  intro r hr
  unfold splitGrid at hr
  rcases gridCols_subRect _ _ _ _ r hr with ⟨ct, hct, hsub⟩
  exact subRect_trans hsub (splitVertical_subRect_all rect _ ct hct)

theorem splitGrid_pairwise (rect : Rect) (amount : Nat) :
    List.Pairwise disjointInteriors (splitGrid rect amount) := by
  unfold splitGrid
  exact gridCols_pairwise _ _ _ _ (splitVertical_pairwise rect _)

/-- The shape of one Fibonacci/Dwindle iteration: one half is emitted in
front of a list that tiles the other half. -/
theorem consTiling {sel other remaining : Rect} {tail : List Rect} {k : Nat}
    (hsel : subRect sel remaining) (hother : subRect other remaining)
    (hdisj : disjointInteriors sel other)
    (harea : sel.surface_area + other.surface_area = remaining.surface_area)
    (htlen : tail.length = k + 1)
    (htarea : areaSum tail = other.surface_area)
    (htsub : ∀ r ∈ tail, subRect r other)
    (htpw : List.Pairwise disjointInteriors tail) :
    (sel :: tail).length = k + 2 ∧
      areaSum (sel :: tail) = remaining.surface_area ∧
      (∀ r ∈ sel :: tail, subRect r remaining) ∧
      List.Pairwise disjointInteriors (sel :: tail) := by
  refine ⟨by simp [htlen], by rw [areaSum_cons, htarea]; omega, ?_, ?_⟩
  · intro r hr
    rcases List.mem_cons.1 hr with hr | hr
    · subst hr; exact hsel
    · exact subRect_trans (htsub r hr) hother
  · refine List.Pairwise.cons ?_ htpw
    intro r hr
    exact disjointInteriors_mono_right (htsub r hr) hdisj

theorem fibonacciAux_spec :
    ∀ k remaining dir, 0 < k →
      (fibonacciAux remaining dir k).length = k ∧
      areaSum (fibonacciAux remaining dir k) = remaining.surface_area ∧
      (∀ r ∈ fibonacciAux remaining dir k, subRect r remaining) ∧
      List.Pairwise disjointInteriors (fibonacciAux remaining dir k) := by
  intro k
  induction k using Nat.strong_induction_on with
  | _ k ih =>
    match k with
    | 0 => intro remaining dir h; omega
    | 1 =>
      intro remaining dir _
      refine ⟨rfl, by simp [fibonacciAux, areaSum], ?_, by simp [fibonacciAux]⟩
      intro r hr
      simp only [fibonacciAux, List.mem_singleton] at hr
      subst hr
      exact subRect_refl _
    | k + 2 =>
      intro remaining dir _
      have ihk := ih (k + 1) (by omega)
      cases hd : dir.clockwise with
      | North =>
        rcases splitHorizontal_two remaining with ⟨p0, p1, heq, hs0, hs1, hdisj, harea⟩
        have hred : fibonacciAux remaining dir (k + 2) =
            p1 :: fibonacciAux p0 Rotation.North (k + 1) := by
          simp only [fibonacciAux, hd, heq, List.getD_cons_succ, List.getD_cons_zero,
            Bool.if_true_left]
          simp
        rw [hred]
        rcases ihk p0 Rotation.North (Nat.succ_pos k) with ⟨hl, ha2, hsub, hpw⟩
        exact consTiling hs1 hs0 (disjointInteriors_symm hdisj) (by omega) hl ha2 hsub hpw
      | South =>
        rcases splitHorizontal_two remaining with ⟨p0, p1, heq, hs0, hs1, hdisj, harea⟩
        have hred : fibonacciAux remaining dir (k + 2) =
            p0 :: fibonacciAux p1 Rotation.South (k + 1) := by
          simp only [fibonacciAux, hd, heq, List.getD_cons_succ, List.getD_cons_zero]
          simp
        rw [hred]
        rcases ihk p1 Rotation.South (Nat.succ_pos k) with ⟨hl, ha2, hsub, hpw⟩
        exact consTiling hs0 hs1 hdisj harea hl ha2 hsub hpw
      | East =>
        rcases splitVertical_two remaining with ⟨p0, p1, heq, hs0, hs1, hdisj, harea⟩
        have hred : fibonacciAux remaining dir (k + 2) =
            p0 :: fibonacciAux p1 Rotation.East (k + 1) := by
          simp only [fibonacciAux, hd, heq, List.getD_cons_succ, List.getD_cons_zero]
          simp
        rw [hred]
        rcases ihk p1 Rotation.East (Nat.succ_pos k) with ⟨hl, ha2, hsub, hpw⟩
        exact consTiling hs0 hs1 hdisj harea hl ha2 hsub hpw
      | West =>
        rcases splitVertical_two remaining with ⟨p0, p1, heq, hs0, hs1, hdisj, harea⟩
        have hred : fibonacciAux remaining dir (k + 2) =
            p1 :: fibonacciAux p0 Rotation.West (k + 1) := by
          simp only [fibonacciAux, hd, heq, List.getD_cons_succ, List.getD_cons_zero]
          simp
        rw [hred]
        rcases ihk p0 Rotation.West (Nat.succ_pos k) with ⟨hl, ha2, hsub, hpw⟩
        exact consTiling hs1 hs0 (disjointInteriors_symm hdisj) (by omega) hl ha2 hsub hpw

theorem dwindleAux_spec :
    ∀ k remaining lastAxisVertical, 0 < k →
      (dwindleAux remaining lastAxisVertical k).length = k ∧
      areaSum (dwindleAux remaining lastAxisVertical k) = remaining.surface_area ∧
      (∀ r ∈ dwindleAux remaining lastAxisVertical k, subRect r remaining) ∧
      List.Pairwise disjointInteriors (dwindleAux remaining lastAxisVertical k) := by
  intro k
  induction k using Nat.strong_induction_on with
  | _ k ih =>
    match k with
    | 0 => intro remaining la h; omega
    | 1 =>
      intro remaining la _
      refine ⟨rfl, by simp [dwindleAux, areaSum], ?_, by simp [dwindleAux]⟩
      intro r hr
      simp only [dwindleAux, List.mem_singleton] at hr
      subst hr
      exact subRect_refl _
    | k + 2 =>
      intro remaining la _
      have ihk := ih (k + 1) (by omega)
      cases la with
      | true =>
        rcases splitHorizontal_two remaining with ⟨p0, p1, heq, hs0, hs1, hdisj, harea⟩
        have hred : dwindleAux remaining true (k + 2) =
            p0 :: dwindleAux p1 false (k + 1) := by
          simp only [dwindleAux, Bool.not_true, Bool.false_eq_true, if_false, heq,
            List.getD_cons_succ, List.getD_cons_zero]
        rw [hred]
        rcases ihk p1 false (Nat.succ_pos k) with ⟨hl, ha2, hsub, hpw⟩
        exact consTiling hs0 hs1 hdisj harea hl ha2 hsub hpw
      | false =>
        rcases splitVertical_two remaining with ⟨p0, p1, heq, hs0, hs1, hdisj, harea⟩
        have hred : dwindleAux remaining false (k + 2) =
            p0 :: dwindleAux p1 true (k + 1) := by
          simp only [dwindleAux, Bool.not_false, if_true, heq,
            List.getD_cons_succ, List.getD_cons_zero]
        rw [hred]
        rcases ihk p1 true (Nat.succ_pos k) with ⟨hl, ha2, hsub, hpw⟩
        exact consTiling hs0 hs1 hdisj harea hl ha2 hsub hpw

/-- Claim C2: for every rectangle R, every present split strategy
(Vertical, Horizontal, Grid, Fibonacci or Dwindle) and every count n ≥ 1,
the list returned by split(R, n, strategy) tiles R exactly: the areas of the
returned rectangles sum to area(R), and the interiors of any two distinct
returned rectangles are disjoint. -/
theorem C2_split_tiles_exactly (rect : Rect) (amount : Nat) (axis : SplitAxis)
    (hax : axis ≠ SplitAxis.None) (ha : 1 ≤ amount) :
    areaSum (split rect amount axis) = rect.surface_area ∧
      List.Pairwise disjointInteriors (split rect amount axis) := by
  have ha0 : amount ≠ 0 := by omega
  have hapos : 0 < amount := ha
  unfold split
  rw [if_neg ha0]
  cases axis with
  | Vertical =>
    exact ⟨splitVertical_areaSum rect amount hapos, splitVertical_pairwise rect amount⟩
  | Horizontal =>
    exact ⟨splitHorizontal_areaSum rect amount hapos, splitHorizontal_pairwise rect amount⟩
  | Grid =>
    exact ⟨splitGrid_areaSum rect amount hapos, splitGrid_pairwise rect amount⟩
  | Fibonacci =>
    rcases fibonacciAux_spec amount rect Rotation.East hapos with ⟨_, h1, _, h2⟩
    exact ⟨h1, h2⟩
  | Dwindle =>
    rcases dwindleAux_spec amount rect true hapos with ⟨_, h1, _, h2⟩
    exact ⟨h1, h2⟩
  | None => exact absurd rfl hax

/-- Witness for C2 at the concrete input R = (0, 0, 400, 200), Grid, n = 3. -/
theorem C2_split_tiles_exactly_witness :
    SplitAxis.Grid ≠ SplitAxis.None ∧ 1 ≤ 3 ∧
      (areaSum (split ⟨0, 0, 400, 200⟩ 3 SplitAxis.Grid) =
          Rect.surface_area ⟨0, 0, 400, 200⟩ ∧
        List.Pairwise disjointInteriors (split ⟨0, 0, 400, 200⟩ 3 SplitAxis.Grid)) :=
  ⟨by decide, by norm_num,
    C2_split_tiles_exactly ⟨0, 0, 400, 200⟩ 3 SplitAxis.Grid (by decide) (by norm_num)⟩

/-- Claim C3: split(R, n, strategy) returns exactly n rectangles when the
strategy is present and n ≥ 1, exactly 1 — namely the rectangle R itself
(subsequent windows dropped) — when the strategy is absent and n ≥ 1, and
exactly 0 rectangles when n = 0. -/
theorem C3_split_length (rect : Rect) (amount : Nat) (axis : SplitAxis) :
    (split rect amount axis).length =
        (if amount = 0 then 0 else if axis = SplitAxis.None then 1 else amount) ∧
      split rect amount SplitAxis.None = (if amount = 0 then [] else [rect]) := by
  constructor
  · by_cases h0 : amount = 0
    · simp [split, h0]
    · have hapos : 0 < amount := Nat.pos_of_ne_zero h0
      rw [if_neg h0]
      unfold split
      rw [if_neg h0]
      cases axis with
      | Vertical => simpa using splitVertical_length rect amount
      | Horizontal => simpa using splitHorizontal_length rect amount
      | Grid => simpa using splitGrid_length rect amount hapos
      | Fibonacci => simpa using (fibonacciAux_spec amount rect Rotation.East hapos).1
      | Dwindle => simpa using (dwindleAux_spec amount rect true hapos).1
      | None => simp
  · by_cases h0 : amount = 0
    · simp [split, h0]
    · simp [split, h0]

/-- Claim C8: for every a ≥ 0 and b > 0, remainderless_division(a, b)
returns exactly b integers that sum to a, each equal to floor(a/b) or
floor(a/b) + 1, with all the larger values placed before the smaller ones;
for example remainderless_division(11, 3) = [4, 4, 3]. -/
theorem C8_remainderless_division_spec (a b : Nat) (hb : 0 < b) :
    (remainderless_division a b).length = b ∧
      (remainderless_division a b).sum = a ∧
      (∀ v ∈ remainderless_division a b, v = a / b ∨ v = a / b + 1) ∧
      List.Pairwise (fun u w => u ≥ w) (remainderless_division a b) ∧
      remainderless_division 11 3 = [4, 4, 3] :=
  ⟨remainderless_division_length a b, remainderless_division_sum a b hb,
    remainderless_division_mem a b hb, remainderless_division_sorted a b hb,
    by decide⟩

/-- Witness for C8 at the concrete input a = 11, b = 3. -/
theorem C8_remainderless_division_spec_witness :
    0 < 3 ∧
      ((remainderless_division 11 3).length = 3 ∧
        (remainderless_division 11 3).sum = 11 ∧
        (∀ v ∈ remainderless_division 11 3, v = 11 / 3 ∨ v = 11 / 3 + 1) ∧
        List.Pairwise (fun u w => u ≥ w) (remainderless_division 11 3) ∧
        remainderless_division 11 3 = [4, 4, 3]) :=
  ⟨by norm_num, C8_remainderless_division_spec 11 3 (by norm_num)⟩

/-- Flip states from geometry/flipped.rs. Its documentation pictures define
Horizontal as the top/bottom mirror (flip on the horizontal axis) and
Vertical as the left/right mirror. -/
inductive Flipped where
  | NoFlip
  | Horizontal
  | Vertical
  | Both
  deriving DecidableEq, Repr

/-- `Flipped::is_flipped_horizontal`. -/
def Flipped.is_flipped_horizontal : Flipped → Bool
  | Flipped.Horizontal | Flipped.Both => true
  | _ => false

/-- `Flipped::is_flipped_vertical`. -/
def Flipped.is_flipped_vertical : Flipped → Bool
  | Flipped.Vertical | Flipped.Both => true
  | _ => false

/-- Body of the geometry/calc.rs `flip` loop for a single rectangle: the
horizontal branch repositions x from the right container edge, the vertical
branch repositions y from the bottom container edge. -/
def flipRect (container : Rect) (flipped : Flipped) (rect : Rect) : Rect :=
  let rect :=
    if flipped.is_flipped_horizontal then
      { rect with x := container.x + (container.w : Int) - (rect.x + (rect.w : Int)) }
    else rect
  if flipped.is_flipped_vertical then
    { rect with y := container.y + (container.h : Int) - (rect.y + (rect.h : Int)) }
  else rect

/-- geometry/calc.rs `flip`: flip every rectangle of the array in the
container (in-place mutation modelled as a map). -/
def flip (container : Rect) (rects : List Rect) (flipped : Flipped) : List Rect :=
  rects.map (flipRect container flipped)

theorem flipRect_involutive (container : Rect) (flipped : Flipped) (rect : Rect) :
    flipRect container flipped (flipRect container flipped rect) = rect := by
  cases flipped <;> cases rect <;>
    simp [flipRect, Flipped.is_flipped_horizontal, Flipped.is_flipped_vertical,
      Rect.mk.injEq] <;>
    omega

/-- Claim C7: flip is an involution; applying the same flip twice in the same
container restores the original array. -/
theorem C7_flip_involution (container : Rect) (rects : List Rect) (flipped : Flipped) :
    flip container (flip container rects flipped) flipped = rects := by
  unfold flip
  rw [List.map_map]
  have h : (flipRect container flipped ∘ flipRect container flipped) = id := by
    funext r
    exact flipRect_involutive container flipped r
  rw [h, List.map_id]

/-- Claim C5 (code_bug evidence): the code of geometry/calc.rs `flip` applied
with Flipped::Horizontal to (0, 0, 40, 40) in container (0, 0, 100, 100)
changes x to 60 and leaves y unchanged — a left/right mirror — whereas the
claim (and the Flipped enum documentation pictures) say a Horizontal flip
changes y to (C.y + C.h) − (r.y + r.h) and leaves x unchanged. -/
theorem C5_flip_horizontal_moves_x :
    flip ⟨0, 0, 100, 100⟩ [⟨0, 0, 40, 40⟩] Flipped.Horizontal = [⟨60, 0, 40, 40⟩] ∧
      flip ⟨0, 0, 100, 100⟩ [⟨0, 0, 40, 40⟩] Flipped.Vertical = [⟨0, 60, 40, 40⟩] := by
  constructor <;> rfl

/-- The four search directions from geometry/direction.rs. -/
inductive Direction where
  | North
  | East
  | South
  | West
  deriving DecidableEq, Repr

/-- Mutable state of the neighbor-search loops: the current nearest index and
the running minimal distances. -/
structure SearchState where
  nearest : Option Nat
  minX : Option Int
  minY : Option Int

/-- geometry/direction.rs `find_nearest_rect`: update the running minima with
the distances of candidate `index`; `Option::unwrap` is sound here because
the first two branches fill the minima before they are read. -/
def find_nearest_rect (st : SearchState) (x_distance y_distance : Int)
    (index : Nat) (updown : Bool) : SearchState :=
  let st := if st.minX.isNone then
      { st with minX := some x_distance, nearest := some index } else st
  let st := if st.minY.isNone then
      { st with minY := some y_distance, nearest := some index } else st
  if updown then
    if y_distance < st.minY.getD 0 then
      { st with minY := some y_distance, nearest := some index }
    else if y_distance = st.minY.getD 0 ∧ x_distance < st.minX.getD 0 then
      { st with minX := some x_distance, nearest := some index }
    else st
  else
    if x_distance < st.minX.getD 0 then
      { st with minX := some x_distance, nearest := some index }
    else if x_distance = st.minX.getD 0 ∧ y_distance < st.minY.getD 0 then
      { st with minY := some y_distance, nearest := some index }
    else st

/-- The candidate filter of `find_north` (negation of its skip condition). -/
def keepNorth (cur r : Rect) : Prop :=
  r ≠ cur ∧ ¬(r.right_edge - 1 < cur.left_edge) ∧
    ¬(r.left_edge + 1 > cur.right_edge) ∧ ¬(r.top_edge + 1 > cur.bottom_edge)

instance (cur r : Rect) : Decidable (keepNorth cur r) := by
  unfold keepNorth; infer_instance

/-- The candidate filter of `find_east` (negation of its skip condition). -/
def keepEast (cur r : Rect) : Prop :=
  r ≠ cur ∧ ¬(r.right_edge - 1 < cur.right_edge) ∧
    ¬(r.bottom_edge - 1 < cur.top_edge) ∧ ¬(r.top_edge + 1 > cur.bottom_edge)

instance (cur r : Rect) : Decidable (keepEast cur r) := by
  unfold keepEast; infer_instance

/-- The candidate filter of `find_south` (negation of its skip condition). -/
def keepSouth (cur r : Rect) : Prop :=
  r ≠ cur ∧ ¬(r.right_edge - 1 < cur.left_edge) ∧
    ¬(r.left_edge + 1 > cur.right_edge) ∧ ¬(r.bottom_edge - 1 < cur.top_edge)

instance (cur r : Rect) : Decidable (keepSouth cur r) := by
  unfold keepSouth; infer_instance

/-- The candidate filter of `find_west` (negation of its skip condition). -/
def keepWest (cur r : Rect) : Prop :=
  r ≠ cur ∧ ¬(r.left_edge + 1 > cur.right_edge) ∧
    ¬(r.bottom_edge - 1 < cur.top_edge) ∧ ¬(r.top_edge + 1 > cur.bottom_edge)

instance (cur r : Rect) : Decidable (keepWest cur r) := by
  unfold keepWest; infer_instance

/-- The scan loop of `find_north`, with the enumeration index threaded. -/
def northFold (cur : Rect) : Nat → SearchState → List Rect → SearchState
  | _, st, [] => st
  | i, st, r :: rest =>
    northFold cur (i + 1)
      (if keepNorth cur r then
        find_nearest_rect st (cur.left_edge - r.right_edge)
          (cur.top_edge - r.bottom_edge) i true
      else st) rest

/-- geometry/direction.rs `find_north`. -/
def find_north (rects : List Rect) (current : Nat) : Option Nat :=
  match rects.get? current with
  | Option.none => Option.none
  | some current_rect =>
    if current_rect.top_edge ≤ 0 then Option.none
    else (northFold current_rect 0 ⟨Option.none, Option.none, Option.none⟩ rects).nearest

/-- The scan loop of `find_east`. -/
def eastFold (cur : Rect) : Nat → SearchState → List Rect → SearchState
  | _, st, [] => st
  | i, st, r :: rest =>
    eastFold cur (i + 1)
      (if keepEast cur r then
        find_nearest_rect st (r.left_edge - cur.right_edge)
          (r.top_edge - cur.bottom_edge) i false
      else st) rest

/-- geometry/direction.rs `find_east`. -/
def find_east (rects : List Rect) (current : Nat) (display_width : Nat) : Option Nat :=
  match rects.get? current with
  | Option.none => Option.none
  | some current_rect =>
    if current_rect.right_edge ≥ (display_width : Int) then Option.none
    else (eastFold current_rect 0 ⟨Option.none, Option.none, Option.none⟩ rects).nearest

/-- The scan loop of `find_south`. -/
def southFold (cur : Rect) : Nat → SearchState → List Rect → SearchState
  | _, st, [] => st
  | i, st, r :: rest =>
    southFold cur (i + 1)
      (if keepSouth cur r then
        find_nearest_rect st (cur.left_edge - r.right_edge)
          (r.top_edge - cur.bottom_edge) i true
      else st) rest

/-- geometry/direction.rs `find_south`. -/
def find_south (rects : List Rect) (current : Nat) (display_height : Nat) : Option Nat :=
  match rects.get? current with
  | Option.none => Option.none
  | some current_rect =>
    if current_rect.y + (current_rect.h : Int) ≥ (display_height : Int) then Option.none
    else (southFold current_rect 0 ⟨Option.none, Option.none, Option.none⟩ rects).nearest

/-- The scan loop of `find_west`. -/
def westFold (cur : Rect) : Nat → SearchState → List Rect → SearchState
  | _, st, [] => st
  | i, st, r :: rest =>
    westFold cur (i + 1)
      (if keepWest cur r then
        find_nearest_rect st (cur.left_edge - r.right_edge)
          (r.top_edge - cur.bottom_edge) i false
      else st) rest

/-- geometry/direction.rs `find_west`. -/
def find_west (rects : List Rect) (current : Nat) : Option Nat :=
  match rects.get? current with
  | Option.none => Option.none
  | some current_rect =>
    if current_rect.left_edge ≤ 0 then Option.none
    else (westFold current_rect 0 ⟨Option.none, Option.none, Option.none⟩ rects).nearest

/-- geometry/direction.rs `Direction::find_neighbor`: guard the index, then
dispatch by direction. -/
def find_neighbor (rects : List Rect) (current : Nat) (direction : Direction)
    (container : Rect) : Option Nat :=
  if current ≥ rects.length then Option.none
  else
    match direction with
    | Direction.North => find_north rects current
    | Direction.East => find_east rects current container.w
    | Direction.South => find_south rects current container.h
    | Direction.West => find_west rects current

theorem find_nearest_rect_nearest (st : SearchState) (xd yd : Int) (i : Nat)
    (u : Bool) (k : Nat) :
    (find_nearest_rect st xd yd i u).nearest = some k → k = i ∨ st.nearest = some k := by
  unfold find_nearest_rect
  dsimp only
  split_ifs <;> intro h <;> (try dsimp only at h) <;>
    first
      | exact Or.inr h
      | (simp only [Option.some.injEq] at h; exact Or.inl h.symm)

theorem northFold_nearest (cur : Rect) :
    ∀ (l : List Rect) (i : Nat) (st : SearchState) (k : Nat),
      (northFold cur i st l).nearest = some k →
      st.nearest = some k ∨
        ∃ j, j < l.length ∧ k = i + j ∧ keepNorth cur (l.getD j default) := by
  intro l
  induction l with
  | nil => intro i st k h; exact Or.inl h
  | cons r rest ih =>
    intro i st k h
    rw [northFold] at h
    rcases ih (i + 1) _ k h with hst | ⟨j, hj, hk, hkeep⟩
    · by_cases hkp : keepNorth cur r
      · rw [if_pos hkp] at hst
        rcases find_nearest_rect_nearest _ _ _ _ _ _ hst with hk | hst
        · exact Or.inr ⟨0, by simp, by omega, by simpa using hkp⟩
        · exact Or.inl hst
      · rw [if_neg hkp] at hst
        exact Or.inl hst
    · exact Or.inr ⟨j + 1, by simpa using hj, by omega, by simpa using hkeep⟩

theorem eastFold_nearest (cur : Rect) :
    ∀ (l : List Rect) (i : Nat) (st : SearchState) (k : Nat),
      (eastFold cur i st l).nearest = some k →
      st.nearest = some k ∨
        ∃ j, j < l.length ∧ k = i + j ∧ keepEast cur (l.getD j default) := by
  intro l
  induction l with
  | nil => intro i st k h; exact Or.inl h
  | cons r rest ih =>
    intro i st k h
    rw [eastFold] at h
    rcases ih (i + 1) _ k h with hst | ⟨j, hj, hk, hkeep⟩
    · by_cases hkp : keepEast cur r
      · rw [if_pos hkp] at hst
        rcases find_nearest_rect_nearest _ _ _ _ _ _ hst with hk | hst
        · exact Or.inr ⟨0, by simp, by omega, by simpa using hkp⟩
        · exact Or.inl hst
      · rw [if_neg hkp] at hst
        exact Or.inl hst
    · exact Or.inr ⟨j + 1, by simpa using hj, by omega, by simpa using hkeep⟩

theorem southFold_nearest (cur : Rect) :
    ∀ (l : List Rect) (i : Nat) (st : SearchState) (k : Nat),
      (southFold cur i st l).nearest = some k →
      st.nearest = some k ∨
        ∃ j, j < l.length ∧ k = i + j ∧ keepSouth cur (l.getD j default) := by
  intro l
  induction l with
  | nil => intro i st k h; exact Or.inl h
  | cons r rest ih =>
    intro i st k h
    rw [southFold] at h
    rcases ih (i + 1) _ k h with hst | ⟨j, hj, hk, hkeep⟩
    · by_cases hkp : keepSouth cur r
      · rw [if_pos hkp] at hst
        rcases find_nearest_rect_nearest _ _ _ _ _ _ hst with hk | hst
        · exact Or.inr ⟨0, by simp, by omega, by simpa using hkp⟩
        · exact Or.inl hst
      · rw [if_neg hkp] at hst
        exact Or.inl hst
    · exact Or.inr ⟨j + 1, by simpa using hj, by omega, by simpa using hkeep⟩

theorem westFold_nearest (cur : Rect) :
    ∀ (l : List Rect) (i : Nat) (st : SearchState) (k : Nat),
      (westFold cur i st l).nearest = some k →
      st.nearest = some k ∨
        ∃ j, j < l.length ∧ k = i + j ∧ keepWest cur (l.getD j default) := by
  intro l
  induction l with
  | nil => intro i st k h; exact Or.inl h
  | cons r rest ih =>
    intro i st k h
    rw [westFold] at h
    rcases ih (i + 1) _ k h with hst | ⟨j, hj, hk, hkeep⟩
    · by_cases hkp : keepWest cur r
      · rw [if_pos hkp] at hst
        rcases find_nearest_rect_nearest _ _ _ _ _ _ hst with hk | hst
        · exact Or.inr ⟨0, by simp, by omega, by simpa using hkp⟩
        · exact Or.inl hst
      · rw [if_neg hkp] at hst
        exact Or.inl hst
    · exact Or.inr ⟨j + 1, by simpa using hj, by omega, by simpa using hkeep⟩

/-- The candidate filter of a direction, used to state what a returned
neighbor must satisfy. -/
def keepDir (d : Direction) (cur r : Rect) : Prop :=
  match d with
  | Direction.North => keepNorth cur r
  | Direction.East => keepEast cur r
  | Direction.South => keepSouth cur r
  | Direction.West => keepWest cur r

/-- Eligibility predicate as claim C9 states it: for North a candidate must
have right-edge ≥ current's left-edge, left-edge ≤ current's right-edge, and
top-edge < current's bottom-edge; the other directions are the analogous
conditions (overlap on the transverse axis, a strict advance condition on the
search axis, with the code's West advance condition being
left-edge < current's right-edge). -/
def eligibleSpec (d : Direction) (cur r : Rect) : Prop :=
  match d with
  | Direction.North =>
    cur.left_edge ≤ r.right_edge ∧ r.left_edge ≤ cur.right_edge ∧
      r.top_edge < cur.bottom_edge
  | Direction.South =>
    cur.left_edge ≤ r.right_edge ∧ r.left_edge ≤ cur.right_edge ∧
      cur.top_edge < r.bottom_edge
  | Direction.East =>
    cur.top_edge ≤ r.bottom_edge ∧ r.top_edge ≤ cur.bottom_edge ∧
      cur.right_edge < r.right_edge
  | Direction.West =>
    cur.top_edge ≤ r.bottom_edge ∧ r.top_edge ≤ cur.bottom_edge ∧
      r.left_edge < cur.right_edge

instance (d : Direction) (cur r : Rect) : Decidable (eligibleSpec d cur r) := by
  unfold eligibleSpec
  cases d <;> infer_instance

theorem keepDir_imp_eligibleSpec (d : Direction) (cur r : Rect)
    (h : keepDir d cur r) : eligibleSpec d cur r := by
  cases d <;>
    simp only [keepDir, keepNorth, keepEast, keepSouth, keepWest,
      eligibleSpec, Rect.left_edge, Rect.right_edge, Rect.top_edge,
      Rect.bottom_edge, not_lt, gt_iff_lt] at h ⊢ <;>
    omega

theorem keepDir_ne (d : Direction) (cur r : Rect) (h : keepDir d cur r) : r ≠ cur := by
  cases d <;> exact h.1

theorem find_north_some (rects : List Rect) (current k : Nat)
    (h : find_north rects current = some k) :
    k < rects.length ∧
      ∃ cur, rects.get? current = some cur ∧ keepNorth cur (rects.getD k default) := by
  unfold find_north at h
  cases hcur : rects.get? current with
  | none => rw [hcur] at h; exact absurd h (by simp)
  | some cur =>
    rw [hcur] at h
    dsimp only at h
    by_cases htop : cur.top_edge ≤ 0
    · rw [if_pos htop] at h; exact absurd h (by simp)
    · rw [if_neg htop] at h
      rcases northFold_nearest cur rects 0 _ k h with hst | ⟨j, hj, hk, hkeep⟩
      · exact absurd hst (by simp)
      · subst hk
        exact ⟨by simpa using hj, cur, rfl, by simpa using hkeep⟩

theorem find_east_some (rects : List Rect) (current k dw : Nat)
    (h : find_east rects current dw = some k) :
    k < rects.length ∧
      ∃ cur, rects.get? current = some cur ∧ keepEast cur (rects.getD k default) := by
  unfold find_east at h
  cases hcur : rects.get? current with
  | none => rw [hcur] at h; exact absurd h (by simp)
  | some cur =>
    rw [hcur] at h
    dsimp only at h
    by_cases hedge : cur.right_edge ≥ (dw : Int)
    · rw [if_pos hedge] at h; exact absurd h (by simp)
    · rw [if_neg hedge] at h
      rcases eastFold_nearest cur rects 0 _ k h with hst | ⟨j, hj, hk, hkeep⟩
      · exact absurd hst (by simp)
      · subst hk
        exact ⟨by simpa using hj, cur, rfl, by simpa using hkeep⟩

theorem find_south_some (rects : List Rect) (current k dh : Nat)
    (h : find_south rects current dh = some k) :
    k < rects.length ∧
      ∃ cur, rects.get? current = some cur ∧ keepSouth cur (rects.getD k default) := by
  unfold find_south at h
  cases hcur : rects.get? current with
  | none => rw [hcur] at h; exact absurd h (by simp)
  | some cur =>
    rw [hcur] at h
    dsimp only at h
    by_cases hedge : cur.y + (cur.h : Int) ≥ (dh : Int)
    · rw [if_pos hedge] at h; exact absurd h (by simp)
    · rw [if_neg hedge] at h
      rcases southFold_nearest cur rects 0 _ k h with hst | ⟨j, hj, hk, hkeep⟩
      · exact absurd hst (by simp)
      · subst hk
        exact ⟨by simpa using hj, cur, rfl, by simpa using hkeep⟩

theorem find_west_some (rects : List Rect) (current k : Nat)
    (h : find_west rects current = some k) :
    k < rects.length ∧
      ∃ cur, rects.get? current = some cur ∧ keepWest cur (rects.getD k default) := by
  unfold find_west at h
  cases hcur : rects.get? current with
  | none => rw [hcur] at h; exact absurd h (by simp)
  | some cur =>
    rw [hcur] at h
    dsimp only at h
    by_cases hedge : cur.left_edge ≤ 0
    · rw [if_pos hedge] at h; exact absurd h (by simp)
    · rw [if_neg hedge] at h
      rcases westFold_nearest cur rects 0 _ k h with hst | ⟨j, hj, hk, hkeep⟩
      · exact absurd hst (by simp)
      · subst hk
        exact ⟨by simpa using hj, cur, rfl, by simpa using hkeep⟩

theorem find_neighbor_keep (rects : List Rect) (current : Nat) (d : Direction)
    (container : Rect) (k : Nat)
    (h : find_neighbor rects current d container = some k) :
    k < rects.length ∧
      ∃ cur, rects.get? current = some cur ∧ keepDir d cur (rects.getD k default) := by
  unfold find_neighbor at h
  by_cases hge : current ≥ rects.length
  · rw [if_pos hge] at h; exact absurd h (by simp)
  · rw [if_neg hge] at h
    cases d with
    | North => exact find_north_some rects current k h
    | East => exact find_east_some rects current k container.w h
    | South => exact find_south_some rects current k container.h h
    | West => exact find_west_some rects current k h

theorem get?_eq_some_getD {l : List Rect} {n : Nat} {r : Rect}
    (h : l.get? n = some r) : l.getD n default = r := by
  rw [List.get?_eq_getElem?] at h
  simp [List.getD, h]

/-- Claim C9 counterexample: in the array [(100, 0, 50, 50), (0, 100, 100, 100)]
the rectangle at index 0 satisfies the claim's North eligibility predicate
relative to the current rectangle at index 1 (its right edge 150 ≥ left edge 0,
its left edge 100 ≤ right edge 100, its top edge 0 < bottom edge 200), yet
find_neighbor returns None, because the code skips candidates whose left edge
only touches the current right edge. This refutes the claimed
"None iff no eligible rectangle". -/
theorem C9_find_neighbor_counterexample :
    find_neighbor [⟨100, 0, 50, 50⟩, ⟨0, 100, 100, 100⟩] 1 Direction.North
        ⟨0, 0, 600, 600⟩ = Option.none ∧
      eligibleSpec Direction.North
        (List.getD [⟨100, 0, 50, 50⟩, ⟨0, 100, 100, 100⟩] 1 default)
        (List.getD [⟨100, 0, 50, 50⟩, ⟨0, 100, 100, 100⟩] 0 default) := by
  decide

/-- Claim C9 amended: for every valid index, whenever find_neighbor returns
Some(j) then rects[j] satisfies the eligibility predicate for the direction;
and if no rectangle other than the current one satisfies the eligibility
predicate, find_neighbor returns None. (The claimed converse — None only
when no rectangle is eligible — fails: the code compares the overlap edges
strictly and returns None early when the current rectangle touches the
container edge, see the counterexample.) -/
theorem C9_find_neighbor_amended (rects : List Rect) (current : Nat) (d : Direction)
    (container : Rect) (hcur : current < rects.length) :
    (∀ k, find_neighbor rects current d container = some k →
        k < rects.length ∧
          eligibleSpec d (rects.getD current default) (rects.getD k default)) ∧
      ((∀ j, j < rects.length → j ≠ current →
            ¬ eligibleSpec d (rects.getD current default) (rects.getD j default)) →
        find_neighbor rects current d container = Option.none) := by
  constructor
  · intro k hk
    rcases find_neighbor_keep rects current d container k hk with ⟨hlt, cur, hget, hkeep⟩
    have hcur_eq : rects.getD current default = cur := get?_eq_some_getD hget
    rw [hcur_eq]
    exact ⟨hlt, keepDir_imp_eligibleSpec d cur _ hkeep⟩
  · intro hno
    cases hres : find_neighbor rects current d container with
    | none => rfl
    | some k =>
      rcases find_neighbor_keep rects current d container k hres with ⟨hlt, cur, hget, hkeep⟩
      have hcur_eq : rects.getD current default = cur := get?_eq_some_getD hget
      have hne : k ≠ current := by
        intro hkc
        subst hkc
        exact (keepDir_ne d cur _ hkeep) hcur_eq
      have helig : eligibleSpec d (rects.getD current default) (rects.getD k default) := by
        rw [hcur_eq]
        exact keepDir_imp_eligibleSpec d cur _ hkeep
      exact absurd helig (hno k hlt hne)

/-- Witness for the amended C9: in [(0, 0, 100, 100), (0, 100, 100, 100)] the
rectangle at index 1 is not North-eligible from index 0, so the search from
index 0 returns None. -/
theorem C9_find_neighbor_amended_witness :
    find_neighbor [⟨0, 0, 100, 100⟩, ⟨0, 100, 100, 100⟩] 0 Direction.North
      ⟨0, 0, 600, 600⟩ = Option.none :=
  (C9_find_neighbor_amended [⟨0, 0, 100, 100⟩, ⟨0, 100, 100, 100⟩] 0 Direction.North
      ⟨0, 0, 600, 600⟩ (by norm_num)).2 (by decide)

/-- Claim C10: Direction::find_neighbor called with an out-of-range index
(current ≥ len(rects)) — including on an empty array — returns None; the
function is total. -/
theorem C10_find_neighbor_out_of_range (rects : List Rect) (current : Nat)
    (d : Direction) (container : Rect) (h : rects.length ≤ current) :
    find_neighbor rects current d container = Option.none := by
  unfold find_neighbor
  rw [if_pos (by omega)]

/-- Witness for C10 on the empty array at index 0. -/
theorem C10_find_neighbor_out_of_range_witness :
    ([] : List Rect).length ≤ 0 ∧
      find_neighbor [] 0 Direction.North ⟨0, 0, 600, 600⟩ = Option.none :=
  ⟨by norm_num,
    C10_find_neighbor_out_of_range [] 0 Direction.North ⟨0, 0, 600, 600⟩ (by norm_num)⟩

/-- Truncation toward zero of a rational, modelling Rust `as i32` / `as u32`
casts of nonnegative float expressions. -/
def ratTrunc (q : Rat) : Int := q.num.tdiv (q.den : Int)

/-- Reserve policy from geometry/reserve_space.rs (`ReserveColumnSpace`). -/
inductive ReserveColumnSpace where
  | NoReserve
  | Reserve
  | ReserveAndCenter
  deriving DecidableEq, Repr

/-- `ReserveColumnSpace::is_reserved`. -/
def ReserveColumnSpace.is_reserved : ReserveColumnSpace → Bool
  | ReserveColumnSpace.NoReserve => false
  | ReserveColumnSpace.Reserve | ReserveColumnSpace.ReserveAndCenter => true

/-- The modifier fields consumed by layouts/columns/main_stack.rs:
main window count, main size percentage (an f32 percent, modelled exactly as
a rational), the split strategies of the two columns, and the reserve
policy. -/
structure LayoutModifiers where
  main_window_count : Nat
  main_size_percentage : Rat
  main_split : SplitAxis
  first_stack_split : SplitAxis
  reserve_column_space : ReserveColumnSpace

/-- layouts/columns/main_stack.rs `main_stack_columns`: derive the optional
main and stack column rectangles. The stack x offset is the main width `m.w`
itself (the container x offset is not added). -/
def main_stack_columns (window_count : Nat) (container : Rect)
    (main_window_count : Nat) (main_size_percentage : Rat)
    (reserve_column_space : ReserveColumnSpace) : Option Rect × Option Rect :=
  let main_window_count := min main_window_count window_count
  let stack_window_count := window_count - main_window_count
  let main_exists := decide (main_window_count > 0) || reserve_column_space.is_reserved
  let stack_exists := decide (stack_window_count > 0) || reserve_column_space.is_reserved
  let main_column : Option Rect :=
    match main_exists, stack_exists with
    | false, _ => Option.none
    | true, true =>
      some { container with
        w := (ratTrunc ((container.w : Rat) / 100 * main_size_percentage)).toNat }
    | true, false => some container
  let stack_column : Option Rect :=
    match main_column, stack_exists with
    | _, false => Option.none
    | Option.none, true => some container
    | some m, true => some { container with x := (m.w : Int), w := container.w - m.w }
  (main_column, stack_column)

/-- layouts/columns/main_stack.rs `main_stack`: derive the columns, split the
main column by the configured (uncapped) main_window_count, and the stack
column by the remaining count. -/
def main_stack (window_count : Nat) (container : Rect)
    (modifiers : LayoutModifiers) : List Rect :=
  if window_count = 0 then []
  else
    let cols := main_stack_columns window_count container modifiers.main_window_count
      modifiers.main_size_percentage modifiers.reserve_column_space
    let mainTiles := match cols.1 with
      | some tile => split tile modifiers.main_window_count modifiers.main_split
      | Option.none => []
    let stackTiles := match cols.2 with
      | some tile =>
        split tile (window_count - modifiers.main_window_count) modifiers.first_stack_split
      | Option.none => []
    mainTiles ++ stackTiles

/-- Claim C1 (code_bug evidence): with one window and a configured main
window count of 2, layouts/columns/main_stack.rs splits the main column by
the uncapped count and returns 2 rectangles — more than the window count 1 —
contradicting the Layout trait contract that the list will not be longer
than window_count and the claimed cap min(M, N). -/
theorem C1_main_stack_exceeds_window_count :
    main_stack 1 ⟨0, 0, 400, 200⟩
        ⟨2, 60, SplitAxis.Vertical, SplitAxis.Horizontal, ReserveColumnSpace.NoReserve⟩ =
      [⟨0, 0, 200, 200⟩, ⟨200, 0, 200, 200⟩] ∧
      (main_stack 1 ⟨0, 0, 400, 200⟩
          ⟨2, 60, SplitAxis.Vertical, SplitAxis.Horizontal,
            ReserveColumnSpace.NoReserve⟩).length = 2 := by
  constructor <;> rfl

/-- Reserve policy from geometry/reserve.rs (`Reserve`), used by the
two_column and three_column composers. The middle variant is called
`Reserve` in the source; it is `Reserved` here because Lean does not allow a
constructor carrying the name of its own type. -/
inductive Reserve where
  | NoReserve
  | Reserved
  | ReserveAndCenter
  deriving DecidableEq, Repr

/-- `Reserve::is_reserved`. -/
def Reserve.is_reserved : Reserve → Bool
  | Reserve.NoReserve => false
  | Reserve.Reserved | Reserve.ReserveAndCenter => true

/-- Size from geometry/size.rs: absolute pixels or a ratio of the whole
(an f32, modelled exactly as a rational). -/
inductive Size where
  | Pixel : Int → Size
  | Ratio : Rat → Size
  deriving DecidableEq, Repr

/-- `Size::into_absolute`: pixels pass through; a ratio is taken by absolute
value, multiplied by the whole and rounded to the nearest integer. -/
def Size.into_absolute (s : Size) (whole : Nat) : Int :=
  match s with
  | Size.Pixel x => x
  | Size.Ratio x => round ((whole : Rat) * |x|)

/-- layouts/columns/two_column.rs `two_column`: compute the optional main and
stack rectangles for a main+stack layout. The x offsets are computed from 0,
not from `container.x` (only `container.y` is carried over). -/
def two_column (window_count : Nat) (container : Rect) (main_window_count : Nat)
    (main_size : Size) (reserve_column_space : Reserve) : Option Rect × Option Rect :=
  let main_window_count := min main_window_count window_count
  let stack_window_count := window_count - main_window_count
  let main_has_windows := decide (main_window_count > 0)
  let stack_has_windows := decide (stack_window_count > 0)
  let main_reserve := main_has_windows || reserve_column_space.is_reserved
  let stack_reserve := stack_has_windows || reserve_column_space.is_reserved
  let main_empty := !main_has_windows && reserve_column_space.is_reserved
  let stack_empty := !stack_has_windows && reserve_column_space.is_reserved
  let main_width : Nat :=
    match main_reserve, stack_reserve with
    | true, true => (main_size.into_absolute container.w).toNat
    | true, false => container.w
    | _, _ => 0
  let stack_width : Nat := container.w - main_width
  let main_offset : Nat :=
    match reserve_column_space, stack_empty with
    | Reserve.ReserveAndCenter, true => stack_width / 2
    | _, _ => 0
  let stack_offset : Nat :=
    match reserve_column_space, main_empty with
    | Reserve.ReserveAndCenter, true => main_width / 2
    | _, _ => main_width
  let main : Option Rect :=
    if main_has_windows then
      some ⟨(main_offset : Int), container.y, main_width, container.h⟩
    else Option.none
  let stack : Option Rect :=
    if stack_has_windows then
      some ⟨(stack_offset : Int), container.y, stack_width, container.h⟩
    else Option.none
  (main, stack)

/-- Claim C4 (code_bug evidence): for the container (100, 0, 400, 200) with
N = 2 windows, M = 1 main window, main size 200 pixels and reserve policy
None, two_column returns the main column at x = 0 and the stack at x = 200,
not at C.x = 100 and C.x + main_w = 300 as the claim requires: the composer
ignores the container's x offset. -/
theorem C4_two_column_ignores_container_x :
    two_column 2 ⟨100, 0, 400, 200⟩ 1 (Size.Pixel 200) Reserve.NoReserve =
      (some ⟨0, 0, 200, 200⟩, some ⟨200, 0, 200, 200⟩) := by
  rfl

/-- The float rectangle used during rotation normalization; the f32 fields
are modelled with exact rationals. -/
structure FloatRect where
  x : Rat
  y : Rat
  w : Rat
  h : Rat
  deriving DecidableEq, Repr

/-- `Rotation::next_anchor`: the corner of the rectangle that becomes the new
top-left anchor after the rotation. -/
def Rotation.next_anchor (rotation : Rotation) (rect : FloatRect) : Rat × Rat :=
  match rotation with
  | Rotation.North => (rect.x, rect.y)
  | Rotation.East => (rect.x, rect.y + rect.h)
  | Rotation.South => (rect.x + rect.w, rect.y + rect.h)
  | Rotation.West => (rect.x + rect.w, rect.y)

/-- geometry/calc.rs `min_x` (`unwrap_or(0)` on an empty array). -/
def min_x (rects : List Rect) : Int := ((rects.map Rect.x).min?).getD 0

/-- geometry/calc.rs `min_y`. -/
def min_y (rects : List Rect) : Int := ((rects.map Rect.y).min?).getD 0

/-- geometry/calc.rs `max_x`. -/
def max_x (rects : List Rect) : Int := ((rects.map Rect.right_edge).max?).getD 0

/-- geometry/calc.rs `max_y`. -/
def max_y (rects : List Rect) : Int := ((rects.map Rect.bottom_edge).max?).getD 0

/-- geometry/calc.rs `outer_rect`: the smallest rectangle containing them all. -/
def outer_rect (rects : List Rect) : Rect :=
  ⟨min_x rects, min_y rects, (max_x rects - min_x rects).toNat,
    (max_y rects - min_y rects).toNat⟩

/-- One index step of the gap-fill pass at the end of geometry/calc.rs
`rotate`. The height test probes the point (x + 1, y + w + 1) — with w, not
h — exactly as the source does. -/
def gapFillStep (outer : Rect) (rects : List Rect) (i : Nat) : List Rect :=
  let ri := rects.getD i default
  let wide_enough := rects.all fun other =>
    !(decide (other ≠ ri) &&
      !other.contains (ri.x + (ri.w : Int), ri.y + 1) &&
      other.contains (ri.x + (ri.w : Int) + 1, ri.y + 1))
  let high_enough := rects.all fun other =>
    !(decide (other ≠ ri) &&
      !other.contains (ri.x + 1, ri.y + (ri.h : Int)) &&
      other.contains (ri.x + 1, ri.y + (ri.w : Int) + 1))
  let wide_enough := wide_enough &&
    !(decide (ri.x + (ri.w : Int) + 1 = outer.x + (outer.w : Int)))
  let high_enough := high_enough &&
    !(decide (ri.y + (ri.h : Int) + 1 = outer.y + (outer.h : Int)))
  let ri := if !wide_enough && outer.contains (ri.x + (ri.w : Int) + 1, ri.y) then
      { ri with w := ri.w + 1 } else ri
  let ri := if !high_enough && outer.contains (ri.x, ri.y + (ri.h : Int) + 1) then
      { ri with h := ri.h + 1 } else ri
  rects.set i ri

/-- The gap-fill loop over all indices (in-place mutation modelled as a
fold over the index range). -/
def gapFill (outer : Rect) (rects : List Rect) : List Rect :=
  (List.range rects.length).foldl (gapFillStep outer) rects

/-- geometry/calc.rs `rotate`: normalize the rectangles to the unit square
over the outer rectangle, rotate, convert back to integers (truncating), and
fill the one-pixel gaps left by the integer conversion. -/
def rotate (rects : List Rect) (rotation : Rotation) : List Rect :=
  let outer := outer_rect rects
  let normalized_float_rects : List FloatRect := rects.map fun rect =>
    if outer.w ≠ 0 ∧ outer.h ≠ 0 then
      { x := (((rect.x - outer.x : Int)) : Rat) / (outer.w : Rat),
        y := (((rect.y - outer.y : Int)) : Rat) / (outer.h : Rat),
        w := (rect.w : Rat) / (outer.w : Rat),
        h := (rect.h : Rat) / (outer.h : Rat) }
    else
      { x := 0, y := 0, w := 0, h := 0 }
  let rotated : List FloatRect := normalized_float_rects.map fun rect =>
    let next_anchor := rotation.next_anchor rect
    match rotation with
    | Rotation.North => rect
    | Rotation.East =>
      { x := 1 - next_anchor.2, y := next_anchor.1, w := rect.h, h := rect.w }
    | Rotation.South =>
      { rect with x := 1 - next_anchor.1, y := 1 - next_anchor.2 }
    | Rotation.West =>
      { x := next_anchor.2, y := 1 - next_anchor.1, w := rect.h, h := rect.w }
  let new_rects : List Rect := rotated.map fun rect =>
    { x := ratTrunc (rect.x * (outer.w : Rat)) + outer.x,
      y := ratTrunc (rect.y * (outer.h : Rat)) + outer.y,
      w := (ratTrunc (rect.w * (outer.w : Rat))).toNat,
      h := (ratTrunc (rect.h * (outer.h : Rat))).toNat }
  gapFill outer new_rects

theorem ratTrunc_eq_floor (q : Rat) (hq : 0 ≤ q) : ratTrunc q = ⌊q⌋ := by
  unfold ratTrunc
  rw [Int.tdiv_eq_ediv (Rat.num_nonneg.2 hq) (by positivity)]
  rw [Rat.floor_def]

/-- Claim C6: rotating [(0, 0, 201, 100), (201, 0, 200, 100)] by 90 degrees
clockwise (East) inside (0, 0, 401, 100) produces exactly
[(0, 0, 401, 50), (0, 50, 401, 50)]: the second rectangle converts back to a
height of 49, and the gap-fill pass stretches it to 50 because its bottom
edge sits one pixel above the outer rectangle's bottom edge, so the result
still tiles the container. -/
theorem C6_rotate_east_gap_fill :
    rotate [⟨0, 0, 201, 100⟩, ⟨201, 0, 200, 100⟩] Rotation.East =
      [⟨0, 0, 401, 50⟩, ⟨0, 50, 401, 50⟩] := by
  have houter : outer_rect [⟨0, 0, 201, 100⟩, ⟨201, 0, 200, 100⟩] = ⟨0, 0, 401, 100⟩ := by
    decide
  simp only [rotate, houter, List.map]
  norm_num [Rotation.next_anchor, ratTrunc_eq_floor]
  decide

end LeftwmLayouts
